import Mathlib

/-
Verification of the envconf package (environment-variable configuration
decoder, src/envconf.go) against its natural-language specification.

Strings are modelled as `List Char`.  Go's maps are modelled as association
lists with unique keys (construction in `New` updates in place, so key order
is the first-insertion order; Go map iteration order is unspecified, the list
order plays that role here).  Mutation through `reflect` is modelled by
explicit state passing: every decoding function returns the updated value.
-/

set_option autoImplicit false

namespace Envconf

/-- Convert a Lean string literal to the `List Char` representation used
throughout this development. -/
def cs (s : String) : List Char := s.toList

/-- ASCII lowering of one character; models the character folding used by
Go's strings.EqualFold (restricted to ASCII, which is all this code and its
tests exercise). -/
def toLowerGo (c : Char) : Char :=
  if 'A' ≤ c ∧ c ≤ 'Z' then Char.ofNat (c.toNat + 32) else c

/-- Models strings.EqualFold: case-insensitive string equality. -/
def eqFold (a b : List Char) : Bool :=
  a.map toLowerGo == b.map toLowerGo

/-- Models unicode.IsSpace as used by strings.TrimSpace (the full set of
Unicode white space code points recognised by Go). -/
def isSpaceGo (c : Char) : Bool :=
  c.toNat = 0x20 || (0x9 ≤ c.toNat && c.toNat ≤ 0xd) ||
  c.toNat = 0x85 || c.toNat = 0xa0 || c.toNat = 0x1680 ||
  (0x2000 ≤ c.toNat && c.toNat ≤ 0x200a) ||
  c.toNat = 0x2028 || c.toNat = 0x2029 || c.toNat = 0x202f ||
  c.toNat = 0x205f || c.toNat = 0x3000

/-- Models strings.TrimSpace: drop leading and trailing white space. -/
def trimSpace (s : List Char) : List Char :=
  ((s.dropWhile isSpaceGo).reverse.dropWhile isSpaceGo).reverse

/-- Models strings.SplitN(e, "=", 2): `none` when `e` contains no '=',
otherwise the parts before and after the first '='. -/
def splitEq : List Char → Option (List Char × List Char)
  | [] => none
  | '=' :: r => some ([], r)
  | c :: r => (splitEq r).map (fun p => (c :: p.1, p.2))

/-- An Environment holds encoded environment variables (Go: map from
variable name to raw value), modelled as an association list with unique
keys. -/
abbrev Environment : Type := List (List Char × List Char)

/-- Go map assignment env[k] = v: replace the value of an existing key,
otherwise add the pair. -/
def insertEnv : Environment → List Char → List Char → Environment
  | [], k, v => [(k, v)]
  | (k0, v0) :: rest, k, v =>
    if k0 == k then (k0, v) :: rest else (k0, v0) :: insertEnv rest k v

/-- One step of the construction loop of New: split the entry on the first
'=', assign into the map when the split succeeded, drop the entry
otherwise. -/
def newStep (env : Environment) (e : List Char) : Environment :=
  match splitEq e with
  | some (k, v) => insertEnv env k v
  | none => env

/-- New returns an Environment populated from the entry list: each entry is
split on the first '=' (entries without '=' are dropped) and assigned into
the map, so a later entry with the same key overwrites an earlier one. -/
def New (environ : List (List Char)) : Environment :=
  environ.foldl newStep []

/-- Go exact map lookup env[name]. -/
def lookupExact (env : Environment) (name : List Char) : Option (List Char) :=
  (env.find? (fun p => p.1 == name)).map Prod.snd

/-- Get returns the value of an environment variable: exact match first,
else a case-insensitive scan; the returned value is whitespace-trimmed.
Go returns (value, ok); `none` models ok = false (with the empty string). -/
def Get (env : Environment) (name : List Char) : Option (List Char) :=
  match lookupExact env name with
  | some v => some (trimSpace v)
  | none =>
    (env.find? (fun p => eqFold p.1 name)).map (fun p => trimSpace p.2)

/-- hasPrefixFold is a case-insensitive version of strings.HasPrefix. -/
def hasPrefixFold (s pre : List Char) : Bool :=
  decide (pre.length ≤ s.length) && eqFold (s.take pre.length) pre

/-- Models strings.Map(removeEscape, seg): the rune-level removeEscape maps
a backslash to -1, which strings.Map drops, so every backslash is removed. -/
def removeEscape (seg : List Char) : List Char :=
  seg.filter (fun c => !(c == '\\'))

/-- The scanning loop of splitList.  `cur` is the segment accumulated since
the last flush (source[lastIndex:index]); `hasEsc` is the hasEscape flag.
An escape character consumes the next character literally; an unescaped
comma flushes the current segment (mapped through removeEscape when the
hasEscape flag is set); at the end the trailing segment is appended only
when it is nonempty. -/
def splitGo : List Char → List Char → Bool → List (List Char)
  | [], cur, hasEsc =>
    if cur == [] then [] else [if hasEsc then removeEscape cur else cur]
  | ['\\'], cur, _ => [removeEscape (cur ++ ['\\'])]
  | '\\' :: c :: rest, cur, _ => splitGo rest (cur ++ ['\\', c]) true
  | ',' :: rest, cur, hasEsc =>
    (if hasEsc then removeEscape cur else cur) :: splitGo rest [] false
  | c :: rest, cur, hasEsc => splitGo rest (cur ++ [c]) hasEsc

/-- splitList splits a comma-separated list into segments, accounting for
escape characters (src/envconf.go splitList). -/
def splitList (source : List Char) : List (List Char) :=
  splitGo source [] false

/-- Numeric value of one digit character, if valid for the given base. -/
def digitVal (base : Nat) (c : Char) : Option Nat :=
  let v :=
    if '0' ≤ c ∧ c ≤ '9' then some (c.toNat - '0'.toNat)
    else if 'a' ≤ c ∧ c ≤ 'z' then some (c.toNat - 'a'.toNat + 10)
    else if 'A' ≤ c ∧ c ≤ 'Z' then some (c.toNat - 'A'.toNat + 10)
    else none
  match v with
  | some n => if n < base then some n else none
  | none => none

/-- Accumulate digits of the given base; fails on an empty digit string or
an invalid digit. -/
def parseDigits (base : Nat) (ds : List Char) : Option Nat :=
  match ds with
  | [] => none
  | _ =>
    ds.foldlM (fun acc c => (digitVal base c).map (fun d => acc * base + d)) 0

/-- Magnitude parsing of strconv.ParseInt/ParseUint with base = 0: a 0x/0X,
0b/0B or 0o/0O run selects the base, a remaining leading 0 means octal,
anything else is decimal.  (Digit-separating underscores, accepted by Go
since 1.13, are not modelled; no behaviour in this development depends on
them.) -/
def parseUintCore : List Char → Option Nat
  | '0' :: 'x' :: r => parseDigits 16 r
  | '0' :: 'X' :: r => parseDigits 16 r
  | '0' :: 'b' :: r => parseDigits 2 r
  | '0' :: 'B' :: r => parseDigits 2 r
  | '0' :: 'o' :: r => parseDigits 8 r
  | '0' :: 'O' :: r => parseDigits 8 r
  | '0' :: [] => some 0
  | '0' :: r => parseDigits 8 r
  | s => parseDigits 10 s

/-- Models strconv.ParseInt(s, 0, bits): optional sign, base detection,
range check for the given bit size.  Go additionally returns the clamped
value together with ErrRange on overflow; the caller only tests err, so
`none` models every error. -/
def parseInt (s : List Char) (bits : Nat) : Option Int :=
  match s with
  | '+' :: r =>
    (parseUintCore r).bind (fun n =>
      if n < 2 ^ (bits - 1) then some (Int.ofNat n) else none)
  | '-' :: r =>
    (parseUintCore r).bind (fun n =>
      if n ≤ 2 ^ (bits - 1) then some (-(Int.ofNat n)) else none)
  | r =>
    (parseUintCore r).bind (fun n =>
      if n < 2 ^ (bits - 1) then some (Int.ofNat n) else none)

/-- Models strconv.ParseUint(s, 0, bits): no sign accepted, base detection,
range check for the given bit size. -/
def parseUint (s : List Char) (bits : Nat) : Option Nat :=
  (parseUintCore s).bind (fun n => if n < 2 ^ bits then some n else none)

/-- Models strconv.ParseBool: exactly the listed spellings. -/
def parseBool (s : List Char) : Option Bool :=
  if s ∈ [cs "1", cs "t", cs "T", cs "true", cs "TRUE", cs "True"] then
    some true
  else if s ∈ [cs "0", cs "f", cs "F", cs "false", cs "FALSE", cs "False"]
  then some false
  else none

/-- Digit run recogniser used by the float syntax model. -/
def allDigits (base : Nat) (ds : List Char) : Bool :=
  !ds.isEmpty && ds.all (fun c => (digitVal base c).isSome)

/-- Unsigned mantissa recogniser for decimal floating literals: a digit
run, a digit run with a dot (digits after the dot optional), or a dot
followed by a digit run. -/
def floatMantOk (m : List Char) : Bool :=
  match m.splitOnP (fun c => c == '.') with
  | [i] => allDigits 10 i
  | [i, f] => (allDigits 10 i && (f.isEmpty || allDigits 10 f))
      || (i.isEmpty && allDigits 10 f)
  | _ => false

/-- Exponent recogniser: an optional sign followed by a nonempty digit
run, as strconv.ParseFloat accepts after the e or E. -/
def floatExpOk : List Char → Bool
  | '+' :: d => allDigits 10 d
  | '-' :: d => allDigits 10 d
  | d => allDigits 10 d

/-- Unsigned decimal or scientific literal: a mantissa, optionally
followed by one e or E and a signed exponent. -/
def floatMantissaOk (s : List Char) : Bool :=
  match s.splitOnP (fun c => c == 'e' || c == 'E') with
  | [m] => floatMantOk m
  | [m, e] => floatMantOk m && floatExpOk e
  | _ => false

/-- Syntactic model of strconv.ParseFloat.  A sign may precede an infinity
spelling or a numeric literal, but not nan: in the Go special-value parser
the sign case falls through to the infinity case only, so "+nan" is
rejected while unsigned "nan" is accepted.  (Hex floats and underscores
are not modelled; no behaviour in this development depends on them.)  Only
definedness of the conversion matters to the decoder, so the model records
the accepted literal instead of an IEEE value. -/
def parseFloatOk (s : List Char) : Bool :=
  let inf : List Char → Bool := fun b =>
    eqFold b (cs "inf") || eqFold b (cs "infinity")
  match s with
  | '+' :: r => inf r || floatMantissaOk r
  | '-' :: r => inf r || floatMantissaOk r
  | r => inf r || eqFold r (cs "nan") || floatMantissaOk r

/-- Go types as seen by the decoder through reflect: the supported scalar
kinds with their bit widths, slices, structs (with the declared field name
and the value of the env struct tag, empty when absent), pointers, and a
single constructor for every other kind (interface, map, chan, func, ...),
for which decodeLiteral reports an unsupported type. -/
inductive Ty : Type
  | intT (bits : Nat)
  | uintT (bits : Nat)
  | floatT (bits : Nat)
  | boolT
  | stringT
  | sliceT (elem : Ty)
  | structT (fields : List (List Char × List Char × Ty))
  | ptrT (elem : Ty)
  | ifaceT
deriving Repr

/-- Go values of the above types.  Scalars carry their contents; a slice
carries its element type (needed by decodeSlice to allocate elements) and
its elements; a struct carries per field the declared name, the env tag and
the field value; a pointer carries its element type and `none` when nil.
Conversion into a float only matters through its success, so the value
records the accepted literal.  `viface` is the (unwritable) value of every
unsupported kind. -/
inductive Val : Type
  | vint (bits : Nat) (v : Int)
  | vuint (bits : Nat) (v : Nat)
  | vfloat (bits : Nat) (lit : List Char)
  | vbool (b : Bool)
  | vstr (s : List Char)
  | vslice (elem : Ty) (elems : List Val)
  | vstruct (fields : List (List Char × List Char × Val))
  | vptr (elem : Ty) (pointee : Option Val)
  | viface
deriving Repr

/-- The non-pointer type at the end of a chain of pointer types. -/
def stripPtr : Ty → Ty
  | .ptrT t => stripPtr t
  | t => t

/-- The zero Go value of a type (reflect.New's pointee). -/
def zeroVal : Ty → Val
  | .intT b => .vint b 0
  | .uintT b => .vuint b 0
  | .floatT b => .vfloat b []
  | .boolT => .vbool false
  | .stringT => .vstr []
  | .sliceT t => .vslice t []
  | .structT fs =>
    .vstruct (fs.attach.map (fun x =>
      match x with
      | ⟨(n, tg, t), _⟩ => (n, tg, zeroVal t)))
  | .ptrT t => .vptr t none
  | .ifaceT => .viface
decreasing_by
  rename_i h
  have h1 := List.sizeOf_lt_of_mem h
  simp only [Prod.mk.sizeOf_spec, Ty.structT.sizeOf_spec] at h1 ⊢
  omega

/-- Structural size of a type, used as the termination measure of the
conversion functions. -/
def tySize : Ty → Nat
  | .intT _ => 1
  | .uintT _ => 1
  | .floatT _ => 1
  | .boolT => 1
  | .stringT => 1
  | .sliceT t => 1 + tySize t
  | .structT fs =>
    1 + (fs.attach.map (fun x =>
      match x with
      | ⟨(_, _, t), _⟩ => tySize t)).sum
  | .ptrT t => 1 + tySize t
  | .ifaceT => 1
decreasing_by
  all_goals
    first
      | (rename_i h
         have h1 := List.sizeOf_lt_of_mem h
         simp only [Prod.mk.sizeOf_spec, Ty.structT.sizeOf_spec] at h1 ⊢
         omega)
      | (simp only [Ty.sliceT.sizeOf_spec, Ty.ptrT.sizeOf_spec]; omega)

/-- Models indirect (src/envconf.go) applied to the pointee of a non-nil
pointer: dereference pointer chains, allocating zero values for nil
pointers, and return the final non-pointer value. -/
def derefAll : Val → Val
  | .vptr t none => zeroVal (stripPtr t)
  | .vptr _ (some w) => derefAll w
  | w => w

/-- Errors returned by the decoder.  Conversion errors from the strconv
models are collapsed into `convError`; the unrecognized-variable error of
DecodeStrict carries the offending key, as the Go error message does. -/
inductive Err : Type
  | nonPointer
  | unsupportedType
  | convError
  | unrecognized (key : List Char)
deriving Repr, DecidableEq

/-- Termination measure for the decodeLiteral/decodeSliceGo recursion: only
a slice value leads to further conversion calls, at its element type. -/
def vMeasure : Val → Nat
  | .vslice t _ => 1 + tySize t
  | _ => 0

theorem tySize_stripPtr_le : (t : Ty) → tySize (stripPtr t) ≤ tySize t
  | .ptrT t => by
    have h := tySize_stripPtr_le t
    simp only [stripPtr, tySize]
    omega
  | .intT _ => le_refl _
  | .uintT _ => le_refl _
  | .floatT _ => le_refl _
  | .boolT => le_refl _
  | .stringT => le_refl _
  | .sliceT _ => le_refl _
  | .structT _ => le_refl _
  | .ifaceT => le_refl _

theorem vMeasure_zeroVal_le (t : Ty) : vMeasure (zeroVal t) ≤ tySize t := by
  cases t <;> simp only [zeroVal, vMeasure, tySize] <;> omega

mutual

/-- decodeLiteral decodes a source string into a value (src/envconf.go
decodeLiteral).  The Go function mutates its reflect.Value argument and
returns an error; the model returns the possibly-updated value next to the
optional error, so that the in-place partial update of a slice on a failing
element is observable exactly as in Go. -/
def decodeLiteral (source : List Char) (v : Val) : Option Err × Val :=
  match v with
  | .vint bits _ =>
    match parseInt source bits with
    | some n => (none, .vint bits n)
    | none => (some .convError, v)
  | .vuint bits _ =>
    match parseUint source bits with
    | some n => (none, .vuint bits n)
    | none => (some .convError, v)
  | .vfloat bits _ =>
    if parseFloatOk source then (none, .vfloat bits source)
    else (some .convError, v)
  | .vbool _ =>
    match parseBool source with
    | some b => (none, .vbool b)
    | none => (some .convError, v)
  | .vslice elemT _ =>
    match decodeSliceGo (splitList source) elemT [] with
    | (e, elems) => (e, .vslice elemT elems)
  | .vstr _ => (none, .vstr source)
  | .vstruct fs => (some .unsupportedType, .vstruct fs)
  | .vptr t w => (some .unsupportedType, .vptr t w)
  | .viface => (some .unsupportedType, .viface)
termination_by (vMeasure v, 0)
decreasing_by
  apply Prod.Lex.left
  simp only [vMeasure]
  omega
/-- The loop of decodeSlice (src/envconf.go): the slice is first cleared
(value.SetLen(0)), then for each raw segment a zero element is allocated
through indirect(reflect.New(elem)), converted, and appended; on the first
failing element the error is returned with the elements appended so far. -/
def decodeSliceGo (sources : List (List Char)) (elemT : Ty) (acc : List Val) :
    Option Err × List Val :=
  match sources with
  | [] => (none, acc)
  | s :: rest =>
    match decodeLiteral s (zeroVal (stripPtr elemT)) with
    | (some e, _) => (some e, acc)
    | (none, elem) => decodeSliceGo rest elemT (acc ++ [elem])
termination_by (tySize elemT, sources.length + 1)
decreasing_by
  · rcases Nat.lt_or_ge (vMeasure (zeroVal (stripPtr elemT))) (tySize elemT)
      with h | h
    · exact Prod.Lex.left _ _ h
    · have h2 : vMeasure (zeroVal (stripPtr elemT)) = tySize elemT :=
        Nat.le_antisymm
          (le_trans (vMeasure_zeroVal_le _) (tySize_stripPtr_le _)) h
      rw [h2]
      exact Prod.Lex.right _ (Nat.succ_pos _)
  · apply Prod.Lex.right
    simp only [List.length_cons]
    omega

end

mutual

/-- decodeField decodes an environment variable into a value (src/envconf.go
decodeField).  A struct is decoded field by field; any other value is a
leaf: its qualified name is looked up, an absent key leaves the value
unchanged, a conversion error is swallowed (the possibly partially updated
value is kept), and on success the qualified name is recorded when `track`
is set (Go: fields != nil).  Returns (error, updated value, consumed keys). -/
def decodeField (env : Environment) (name sep : List Char) (v : Val)
    (track : Bool) : Option Err × Val × List (List Char) :=
  match v with
  | .vstruct fs =>
    match decodeFieldList env name sep fs track with
    | (e, fs2, ks) => (e, .vstruct fs2, ks)
  | v =>
    match Get env name with
    | none => (none, v, [])
    | some source =>
      match decodeLiteral source v with
      | (some _, v2) => (none, v2, [])
      | (none, v2) => (none, v2, if track then [name] else [])

/-- The field loop of decodeField: a field tagged "-" is skipped, an empty
tag falls back to the declared field name, and each kept field is decoded
under the qualified name built with the separator.  An error aborts the
loop, keeping the values already written. -/
def decodeFieldList (env : Environment) (name sep : List Char)
    (fs : List (List Char × List Char × Val)) (track : Bool) :
    Option Err × List (List Char × List Char × Val) × List (List Char) :=
  match fs with
  | [] => (none, [], [])
  | (fname, tag, fval) :: rest =>
    if tag == cs "-" then
      match decodeFieldList env name sep rest track with
      | (e, rest2, ks) => (e, (fname, tag, fval) :: rest2, ks)
    else
      let seg := if tag == [] then fname else tag
      match decodeField env (name ++ sep ++ seg) sep fval track with
      | (some e, fval2, ks) => (some e, (fname, tag, fval2) :: rest, ks)
      | (none, fval2, ks) =>
        match decodeFieldList env name sep rest track with
        | (e, rest2, ks2) => (e, (fname, tag, fval2) :: rest2, ks ++ ks2)

end

/-- decode decodes env into a target value (src/envconf.go decode), on the
valid reflect.Values (every Val is a valid value): a value that is not a
non-nil pointer is rejected with the non-pointer error; otherwise the
pointer is dereferenced through indirect (allocating nil pointers along
the way) and decoded by decodeField.  Go mutates the pointee in place; the
model returns the final pointee.  The one argument whose reflect.Value is
not valid — the nil untyped interface, for which the error branch of the
Go function panics instead of returning — is outside Val; decodeTop below
extends this function to that full argument domain. -/
def decode (env : Environment) (pre sep : List Char) (v : Val)
    (track : Bool) : Option Err × Val × List (List Char) :=
  match v with
  | .vptr _ (some w) => decodeField env pre sep (derefAll w) track
  | v => (some .nonPointer, v, [])

/-- A decode target as passed through the empty-interface parameter of
Go's decode: either the nil untyped value, whose reflect.Value is the zero
Value, or an ordinary (valid) value. -/
inductive Target : Type
  | nilIface
  | val (v : Val)
deriving Repr

/-- decode on the full empty-interface argument domain.  For the nil
untyped target, reflect.ValueOf yields the zero Value: its Kind is Invalid
(not Ptr), so the error branch runs, and evaluating value.Type() on the
zero Value panics before the error is built (src/envconf.go line 91) — the
panic is modelled as `none`: no result, not even an error, is returned.
Every other argument is a valid reflect.Value and behaves as decode. -/
def decodeTop (env : Environment) (pre sep : List Char) (v : Target)
    (track : Bool) : Option (Option Err × Val × List (List Char)) :=
  match v with
  | .nilIface => none
  | .val w => some (decode env pre sep w track)

/-- Decode: the non-strict entry point (fields pointer nil, so no consumed
keys are tracked).  Stated on valid targets; on the nil untyped target the
Go entry point panics inside decode, as decodeTop records. -/
def Decode (env : Environment) (pre sep : List Char) (v : Val) :
    Option Err × Val :=
  match decode env pre sep v false with
  | (e, v2, _) => (e, v2)

/-- The test a key must fail to be acceptable to DecodeStrict: it offends
when it has the prefix (case-insensitively) and matches no ignore entry
(exactly, via the map lookup, or case-insensitively) and no consumed field
key (case-insensitively).  The check order follows the Go loop. -/
def offendsB (pre : List Char) (fields ignoreEnv : List (List Char))
    (key : List Char) : Bool :=
  hasPrefixFold key pre && !(ignoreEnv.contains key) &&
    !(fields.any (fun f => eqFold key f)) &&
    !(ignoreEnv.any (fun f => eqFold key f))

/-- DecodeStrict (src/envconf.go): decode with consumed-key tracking, then
fail on the first stored key under the prefix that neither the consumed
keys nor the ignore set account for.  Go iterates the env map in
unspecified order; the model iterates in list order.  Stated on valid
targets; on the nil untyped target the Go entry point panics inside
decode, as decodeTop records. -/
def DecodeStrict (env : Environment) (pre sep : List Char) (v : Val)
    (ignoreEnv : List (List Char)) : Option Err :=
  match decode env pre sep v true with
  | (some e, _, _) => some e
  | (none, _, fields) =>
    (env.find? (fun p => offendsB pre fields ignoreEnv p.1)).map
      (fun p => Err.unrecognized p.1)

/-! Specification-level description of the list splitter, proved equal to
the scanning implementation below. -/

/-- Prepend characters to the first segment of a segment list. -/
def consHead (pre : List Char) : List (List Char) → List (List Char)
  | [] => [pre]
  | h :: t => (pre ++ h) :: t

/-- The raw segments of a source string: split at every unescaped comma,
escape characters left in place, including a possibly empty last segment. -/
def segmentsRaw : List Char → List (List Char)
  | [] => [[]]
  | ['\\'] => [['\\']]
  | '\\' :: c :: r => consHead ['\\', c] (segmentsRaw r)
  | ',' :: r => [] :: segmentsRaw r
  | c :: r => consHead [c] (segmentsRaw r)

/-- Remove a trailing empty segment, when present. -/
def dropTrailEmpty (l : List (List Char)) : List (List Char) :=
  match l.getLast? with
  | some [] => l.dropLast
  | _ => l

theorem consHead_consHead (a b : List Char) (s : List (List Char)) :
    consHead a (consHead b s) = consHead (a ++ b) s := by
  cases s <;> simp [consHead]

theorem segmentsRaw_ne_nil (src : List Char) : segmentsRaw src ≠ [] := by
  rw [segmentsRaw.eq_def]
  split
  · simp
  · simp
  · cases segmentsRaw _ <;> simp [consHead]
  · simp
  · cases segmentsRaw _ <;> simp [consHead]

theorem dropTrailEmpty_cons (x : List Char) (l : List (List Char))
    (h : l ≠ []) : dropTrailEmpty (x :: l) = x :: dropTrailEmpty l := by
  match l with
  | y :: t =>
    simp only [dropTrailEmpty, List.getLast?_cons_cons]
    cases hg : (y :: t).getLast? with
    | none => simp_all [List.getLast?_eq_none_iff]
    | some z =>
      cases z with
      | nil => simp [List.dropLast_cons_of_ne_nil]
      | cons a b => simp

theorem removeEscape_eq_self (s : List Char) (h : '\\' ∉ s) :
    removeEscape s = s := by
  rw [removeEscape, List.filter_eq_self]
  intro a ha
  simp only [Bool.not_eq_true']
  cases hab : (a == '\\') with
  | false => rfl
  | true => exact absurd (by simpa using (beq_iff_eq.mp hab ▸ ha)) h

theorem splitGo_eq : (src cur : List Char) → (he : Bool) →
    (he = false → '\\' ∉ cur) →
    splitGo src cur he
      = (dropTrailEmpty (consHead cur (segmentsRaw src))).map removeEscape
  | [], cur, he, hcur => by
    simp only [splitGo, segmentsRaw, consHead, List.append_nil]
    cases hc : (cur == []) with
    | true =>
      have : cur = [] := beq_iff_eq.mp hc
      subst this
      simp [dropTrailEmpty]
    | false =>
      have hne : cur ≠ [] := by
        intro h; subst h; simp at hc
      have : dropTrailEmpty [cur] = [cur] := by
        simp only [dropTrailEmpty, List.getLast?_singleton]
        cases cur with
        | nil => exact absurd rfl hne
        | cons a b => simp
      rw [this]
      cases he with
      | true => simp
      | false => simp [removeEscape_eq_self cur (hcur rfl)]
  | ['\\'], cur, he, hcur => by
    simp only [splitGo, segmentsRaw, consHead]
    have hne : cur ++ ['\\'] ≠ [] := by simp
    have : dropTrailEmpty [cur ++ ['\\']] = [cur ++ ['\\']] := by
      simp only [dropTrailEmpty, List.getLast?_singleton]
      cases hc : cur ++ ['\\'] with
      | nil => exact absurd hc hne
      | cons a b => simp
    rw [this]
    simp
  | '\\' :: c :: r, cur, he, hcur => by
    simp only [splitGo]
    rw [splitGo_eq r (cur ++ ['\\', c]) true (by simp)]
    simp only [segmentsRaw, consHead_consHead]
  | ',' :: r, cur, he, hcur => by
    simp only [splitGo]
    rw [splitGo_eq r [] false (by simp)]
    have h1 : consHead [] (segmentsRaw r) = segmentsRaw r := by
      cases hr : segmentsRaw r with
      | nil => exact absurd hr (segmentsRaw_ne_nil r)
      | cons a b => simp [consHead]
    have h2 : consHead cur (segmentsRaw (',' :: r))
        = cur :: segmentsRaw r := by
      show consHead cur ([] :: segmentsRaw r) = cur :: segmentsRaw r
      simp [consHead]
    rw [h1, h2, dropTrailEmpty_cons cur _ (segmentsRaw_ne_nil r)]
    simp only [List.map_cons]
    cases he with
    | true => simp
    | false => simp [removeEscape_eq_self cur (hcur rfl)]
  | c :: r, cur, he, hcur => by
    by_cases hb : c = '\\'
    · subst hb
      match r with
      | [] =>
        simp only [splitGo, segmentsRaw, consHead]
        have hne : cur ++ ['\\'] ≠ [] := by simp
        have : dropTrailEmpty [cur ++ ['\\']] = [cur ++ ['\\']] := by
          simp only [dropTrailEmpty, List.getLast?_singleton]
          cases hc : cur ++ ['\\'] with
          | nil => exact absurd hc hne
          | cons a b => simp
        rw [this]
        simp
      | c2 :: r2 =>
        simp only [splitGo]
        rw [splitGo_eq r2 (cur ++ ['\\', c2]) true (by simp)]
        simp only [segmentsRaw, consHead_consHead]
    · by_cases hcm : c = ','
      · subst hcm
        simp only [splitGo]
        rw [splitGo_eq r [] false (by simp)]
        have h1 : consHead [] (segmentsRaw r) = segmentsRaw r := by
          cases hr : segmentsRaw r with
          | nil => exact absurd hr (segmentsRaw_ne_nil r)
          | cons a b => simp [consHead]
        have h2 : consHead cur (segmentsRaw (',' :: r))
            = cur :: segmentsRaw r := by
          show consHead cur ([] :: segmentsRaw r) = cur :: segmentsRaw r
          simp [consHead]
        rw [h1, h2, dropTrailEmpty_cons cur _ (segmentsRaw_ne_nil r)]
        simp only [List.map_cons]
        cases he with
        | true => simp
        | false => simp [removeEscape_eq_self cur (hcur rfl)]
      · rw [show splitGo (c :: r) cur he = splitGo r (cur ++ [c]) he from by
          cases r with
          | nil => simp [splitGo, hb, hcm]
          | cons c2 r2 => simp [splitGo, hb, hcm]]
        rw [splitGo_eq r (cur ++ [c]) he (fun hf => by
          intro hmem
          rcases List.mem_append.mp hmem with h | h
          · exact hcur hf h
          · simp at h; exact hb h.symm)]
        have : segmentsRaw (c :: r) = consHead [c] (segmentsRaw r) := by
          cases r with
          | nil => simp [segmentsRaw, hb, hcm, consHead]
          | cons c2 r2 => simp [segmentsRaw, hb, hcm]
        rw [this, consHead_consHead]

/-- The list splitter, characterised: split at unescaped commas, drop a
trailing empty raw segment, remove every escape character from every
segment. -/
theorem splitList_eq (src : List Char) :
    splitList src = (dropTrailEmpty (segmentsRaw src)).map removeEscape := by
  rw [splitList, splitGo_eq src [] false (by simp)]
  cases hr : segmentsRaw src with
  | nil => exact absurd hr (segmentsRaw_ne_nil src)
  | cons a b => simp [consHead]

/-- Does the string contain a comma not preceded by an unconsumed escape
character? -/
def hasUnescapedComma : List Char → Bool
  | [] => false
  | ['\\'] => false
  | '\\' :: _ :: r => hasUnescapedComma r
  | ',' :: _ => true
  | _ :: r => hasUnescapedComma r

theorem segmentsRaw_cons_other (c : Char) (r : List Char) (hb : c ≠ '\\')
    (hcm : c ≠ ',') : segmentsRaw (c :: r) = consHead [c] (segmentsRaw r) := by
  cases r with
  | nil => simp [segmentsRaw, hb, hcm]
  | cons c2 r2 => simp [segmentsRaw, hb, hcm]

theorem hasUnescapedComma_cons_other (c : Char) (r : List Char)
    (hb : c ≠ '\\') (hcm : c ≠ ',') :
    hasUnescapedComma (c :: r) = hasUnescapedComma r := by
  cases r with
  | nil => simp [hasUnescapedComma, hb, hcm]
  | cons c2 r2 => simp [hasUnescapedComma, hb, hcm]

theorem segmentsRaw_no_comma : (src : List Char) →
    hasUnescapedComma src = false → segmentsRaw src = [src]
  | [], _ => rfl
  | ['\\'], _ => rfl
  | '\\' :: c :: r, h => by
    have hr : hasUnescapedComma r = false := h
    rw [show segmentsRaw ('\\' :: c :: r) = consHead ['\\', c] (segmentsRaw r)
        from rfl,
      segmentsRaw_no_comma r hr]
    simp [consHead]
  | ',' :: r, h => by simp [hasUnescapedComma] at h
  | c :: r, h => by
    by_cases hb : c = '\\'
    · subst hb
      cases r with
      | nil => rfl
      | cons c2 r2 =>
        have hr : hasUnescapedComma r2 = false := h
        rw [show segmentsRaw ('\\' :: c2 :: r2)
            = consHead ['\\', c2] (segmentsRaw r2) from rfl,
          segmentsRaw_no_comma r2 hr]
        simp [consHead]
    · by_cases hcm : c = ','
      · subst hcm
        simp [hasUnescapedComma] at h
      · have hr : hasUnescapedComma r = false := by
          rw [hasUnescapedComma_cons_other c r hb hcm] at h
          exact h
        rw [segmentsRaw_cons_other c r hb hcm, segmentsRaw_no_comma r hr]
        simp [consHead]

/-! Characterisation of the conversion and decoding functions. -/

/-- Values of a supported scalar kind (signed integer, unsigned integer,
float, boolean, string). -/
def isScalarV : Val → Bool
  | .vint _ _ => true
  | .vuint _ _ => true
  | .vfloat _ _ => true
  | .vbool _ => true
  | .vstr _ => true
  | _ => false

theorem decodeLiteral_scalar_err_unchanged (s : List Char) (v : Val)
    (hv : isScalarV v = true) (he : (decodeLiteral s v).1.isSome) :
    (decodeLiteral s v).2 = v := by
  cases v with
  | vint b x =>
    simp only [decodeLiteral] at he ⊢
    cases hp : parseInt s b
    · simp [hp]
    · rw [hp] at he
      simp at he
  | vuint b x =>
    simp only [decodeLiteral] at he ⊢
    cases hp : parseUint s b
    · simp [hp]
    · rw [hp] at he
      simp at he
  | vfloat b x =>
    simp only [decodeLiteral] at he ⊢
    cases hp : parseFloatOk s
    · simp [hp]
    · rw [hp] at he
      simp at he
  | vbool x =>
    simp only [decodeLiteral] at he ⊢
    cases hp : parseBool s
    · simp [hp]
    · rw [hp] at he
      simp at he
  | vstr x =>
    simp only [decodeLiteral] at he
    simp at he
  | vslice t es => simp [isScalarV] at hv
  | vstruct fs => simp [isScalarV] at hv
  | vptr t w => simp [isScalarV] at hv
  | viface => simp [isScalarV] at hv

/-- Does this raw segment convert into the (pointer-stripped) element
type? -/
def elemOk (t : Ty) (s : List Char) : Bool :=
  ((decodeLiteral s (zeroVal (stripPtr t))).1).isNone

/-- The value a raw segment converts to at the element type. -/
def convElem (t : Ty) (s : List Char) : Val :=
  (decodeLiteral s (zeroVal (stripPtr t))).2

/-- The converted values of the longest prefix of segments that all
convert. -/
def convertedPrefix (t : Ty) (sources : List (List Char)) : List Val :=
  (sources.takeWhile (elemOk t)).map (convElem t)

/-- The conversion error of the first failing segment, if any. -/
def firstErrOf (t : Ty) (sources : List (List Char)) : Option Err :=
  match sources.dropWhile (elemOk t) with
  | [] => none
  | s :: _ => (decodeLiteral s (zeroVal (stripPtr t))).1

theorem decodeSliceGo_eq : (sources : List (List Char)) → (t : Ty) →
    (acc : List Val) →
    decodeSliceGo sources t acc
      = (firstErrOf t sources, acc ++ convertedPrefix t sources)
  | [], t, acc => by
    simp [decodeSliceGo, firstErrOf, convertedPrefix]
  | s :: rest, t, acc => by
    cases hd : decodeLiteral s (zeroVal (stripPtr t)) with
    | mk e elem =>
      rw [decodeSliceGo]
      cases e with
      | some err =>
        have hok : elemOk t s = false := by simp [elemOk, hd]
        simp only [hd, firstErrOf, convertedPrefix, List.dropWhile_cons,
          List.takeWhile_cons, hok]
        simp [hd]
      | none =>
        have hok : elemOk t s = true := by simp [elemOk, hd]
        have hc : convElem t s = elem := by simp [convElem, hd]
        simp only [hd]
        rw [decodeSliceGo_eq rest t (acc ++ [elem])]
        simp only [firstErrOf, convertedPrefix, List.dropWhile_cons,
          List.takeWhile_cons, hok]
        simp [hc, firstErrOf, convertedPrefix]

/-- The qualified key of a field: name, separator, then the tag override or
the declared field name. -/
def fieldKey (name sep fname tag : List Char) : List Char :=
  name ++ sep ++ (if tag == [] then fname else tag)

/-- The final value of one field after the decoding pass. -/
def fieldStep (env : Environment) (name sep : List Char) (track : Bool)
    (f : List Char × List Char × Val) : List Char × List Char × Val :=
  if f.2.1 == cs "-" then f
  else (f.1, f.2.1,
    (decodeField env (fieldKey name sep f.1 f.2.1) sep f.2.2 track).2.1)

/-- The consumed keys contributed by one field. -/
def fieldKeys (env : Environment) (name sep : List Char) (track : Bool)
    (f : List Char × List Char × Val) : List (List Char) :=
  if f.2.1 == cs "-" then []
  else (decodeField env (fieldKey name sep f.1 f.2.1) sep f.2.2 track).2.2

theorem decodeFieldList_cons_skip (env : Environment)
    (name sep fname tag : List Char) (fval : Val)
    (rest : List (List Char × List Char × Val)) (track : Bool)
    (h : (tag == cs "-") = true) :
    decodeFieldList env name sep ((fname, tag, fval) :: rest) track
      = ((decodeFieldList env name sep rest track).1,
         (fname, tag, fval) :: (decodeFieldList env name sep rest track).2.1,
         (decodeFieldList env name sep rest track).2.2) := by
  rw [decodeFieldList]
  rw [if_pos h]

theorem decodeFieldList_cons_go (env : Environment)
    (name sep fname tag : List Char) (fval : Val)
    (rest : List (List Char × List Char × Val)) (track : Bool)
    (h : ¬(tag == cs "-") = true)
    (he : (decodeField env (name ++ sep ++ if tag == [] then fname else tag)
        sep fval track).1 = none) :
    decodeFieldList env name sep ((fname, tag, fval) :: rest) track
      = ((decodeFieldList env name sep rest track).1,
         (fname, tag,
           (decodeField env
             (name ++ sep ++ if tag == [] then fname else tag) sep fval
             track).2.1) :: (decodeFieldList env name sep rest track).2.1,
         (decodeField env (name ++ sep ++ if tag == [] then fname else tag)
             sep fval track).2.2
           ++ (decodeFieldList env name sep rest track).2.2) := by
  have step : decodeFieldList env name sep ((fname, tag, fval) :: rest) track
      = (if (tag == cs "-") = true then
          match decodeFieldList env name sep rest track with
          | (e, rest2, ks) => (e, (fname, tag, fval) :: rest2, ks)
        else
          match decodeField env
              (name ++ sep ++ if tag == [] then fname else tag) sep fval
              track with
          | (some e, fval2, ks) => (some e, (fname, tag, fval2) :: rest, ks)
          | (none, fval2, ks) =>
            match decodeFieldList env name sep rest track with
            | (e, rest2, ks2) =>
              (e, (fname, tag, fval2) :: rest2, ks ++ ks2)) := rfl
  rw [step, if_neg h]
  cases hfv : decodeField env
      (name ++ sep ++ if tag == [] then fname else tag) sep fval track with
  | mk e pr =>
    obtain ⟨v2, ks⟩ := pr
    rw [hfv] at he
    simp only at he
    subst he
    cases hl : decodeFieldList env name sep rest track with
    | mk e2 r2 =>
      obtain ⟨a, b⟩ := r2
      simp [hfv]

theorem decodeField_err_none_fuel : (n : Nat) →
    (∀ (v : Val), sizeOf v ≤ n → ∀ (env : Environment)
      (name sep : List Char) (track : Bool),
      (decodeField env name sep v track).1 = none) ∧
    (∀ (fs : List (List Char × List Char × Val)), sizeOf fs ≤ n →
      ∀ (env : Environment) (name sep : List Char) (track : Bool),
      (decodeFieldList env name sep fs track).1 = none)
  | 0 => by
    constructor
    · intro v hv
      exfalso
      cases v <;>
        simp only [Val.vint.sizeOf_spec, Val.vuint.sizeOf_spec,
          Val.vfloat.sizeOf_spec, Val.vbool.sizeOf_spec, Val.vstr.sizeOf_spec,
          Val.vslice.sizeOf_spec, Val.vstruct.sizeOf_spec,
          Val.vptr.sizeOf_spec, Val.viface.sizeOf_spec] at hv <;>
        omega
    · intro fs hfs
      exfalso
      cases fs <;>
        simp only [List.nil.sizeOf_spec, List.cons.sizeOf_spec] at hfs <;>
        omega
  | n + 1 => by
    have ih := decodeField_err_none_fuel n
    constructor
    · intro v hv env name sep track
      cases v with
      | vstruct fs =>
        rw [decodeField]
        have hfs : sizeOf fs ≤ n := by
          simp only [Val.vstruct.sizeOf_spec] at hv
          omega
        have hnone := ih.2 fs hfs env name sep track
        cases hl : decodeFieldList env name sep fs track with
        | mk e rest =>
          obtain ⟨a, b⟩ := rest
          rw [hl] at hnone
          simp only at hnone
          subst hnone
          simp
      | vint b x =>
        rw [decodeField.eq_def]
        cases Get env name <;> simp <;> split <;> simp
      | vuint b x =>
        rw [decodeField.eq_def]
        cases Get env name <;> simp <;> split <;> simp
      | vfloat b x =>
        rw [decodeField.eq_def]
        cases Get env name <;> simp <;> split <;> simp
      | vbool x =>
        rw [decodeField.eq_def]
        cases Get env name <;> simp <;> split <;> simp
      | vstr x =>
        rw [decodeField.eq_def]
        cases Get env name <;> simp <;> split <;> simp
      | vslice t es =>
        rw [decodeField.eq_def]
        cases Get env name <;> simp <;> split <;> simp
      | vptr t w =>
        rw [decodeField.eq_def]
        cases Get env name <;> simp <;> split <;> simp
      | viface =>
        rw [decodeField.eq_def]
        cases Get env name <;> simp <;> split <;> simp
    · intro fs hfs env name sep track
      cases fs with
      | nil => rw [decodeFieldList]
      | cons f rest =>
        match f with
        | (fname, tag, fval) =>
          have hsz : sizeOf rest ≤ n ∧ sizeOf fval ≤ n := by
            simp only [List.cons.sizeOf_spec, Prod.mk.sizeOf_spec] at hfs
            constructor <;> omega
          by_cases hskip : (tag == cs "-") = true
          · rw [decodeFieldList_cons_skip env name sep fname tag fval rest
              track hskip]
            exact ih.2 rest hsz.1 env name sep track
          · rw [decodeFieldList_cons_go env name sep fname tag fval rest
              track hskip (ih.1 fval hsz.2 env _ sep track)]
            exact ih.2 rest hsz.1 env name sep track

theorem decodeField_err_none (env : Environment) (name sep : List Char)
    (v : Val) (track : Bool) : (decodeField env name sep v track).1 = none :=
  (decodeField_err_none_fuel (sizeOf v)).1 v (le_refl _) env name sep track

theorem decodeFieldList_err_none (env : Environment) (name sep : List Char)
    (fs : List (List Char × List Char × Val)) (track : Bool) :
    (decodeFieldList env name sep fs track).1 = none :=
  (decodeField_err_none_fuel (sizeOf fs)).2 fs (le_refl _) env name sep track

theorem decodeFieldList_eq (env : Environment) (name sep : List Char)
    (fs : List (List Char × List Char × Val)) (track : Bool) :
    decodeFieldList env name sep fs track
      = (none, fs.map (fieldStep env name sep track),
          (fs.map (fieldKeys env name sep track)).join) := by
  induction fs with
  | nil => rw [decodeFieldList] ; simp
  | cons f rest ih =>
    match f with
    | (fname, tag, fval) =>
      by_cases hskip : (tag == cs "-") = true
      · rw [decodeFieldList_cons_skip env name sep fname tag fval rest track
          hskip, ih]
        simp only [List.map_cons, List.join, fieldStep, fieldKeys, hskip,
          if_pos]
        simp
      · rw [decodeFieldList_cons_go env name sep fname tag fval rest track
          hskip (decodeField_err_none env _ sep fval track), ih]
        simp only [List.map_cons, List.join, fieldStep, fieldKeys,
          if_neg hskip, fieldKey]
        simp

/-! Lookup, construction and strict-validation lemmas. -/

theorem eqFold_refl (a : List Char) : eqFold a a = true := by
  simp [eqFold]

theorem eqFold_symm {a b : List Char} (h : eqFold a b = true) :
    eqFold b a = true := by
  simp only [eqFold, beq_iff_eq] at h ⊢
  exact h.symm

theorem eqFold_trans {a b c : List Char} (h1 : eqFold a b = true)
    (h2 : eqFold b c = true) : eqFold a c = true := by
  simp only [eqFold, beq_iff_eq] at h1 h2 ⊢
  exact h1.trans h2

theorem lookupExact_eq_some {env : Environment} {name v : List Char}
    (h : lookupExact env name = some v) : (name, v) ∈ env := by
  simp only [lookupExact, Option.map_eq_some'] at h
  obtain ⟨p, hp, hv⟩ := h
  have hmem := List.mem_of_find?_eq_some hp
  have hpred := List.find?_some hp
  have : p.1 = name := by simpa using hpred
  cases p with
  | mk a b =>
    simp only at this hv
    subst this
    subst hv
    exact hmem

theorem Get_of_exact {env : Environment} {name v : List Char}
    (h : lookupExact env name = some v) :
    Get env name = some (trimSpace v) := by
  simp [Get, h]

theorem Get_eq_none_iff (env : Environment) (name : List Char) :
    Get env name = none ↔ ∀ p ∈ env, eqFold p.1 name = false := by
  rw [Get]
  cases hx : lookupExact env name with
  | some v =>
    simp only []
    constructor
    · intro h
      exact absurd h (by simp)
    · intro hall
      exfalso
      have hmem := lookupExact_eq_some hx
      have := hall (name, v) hmem
      rw [eqFold_refl name] at this
      cases this
  | none =>
    simp only [Option.map_eq_none', List.find?_eq_none]
    constructor
    · intro h p hp
      have := h p hp
      simpa using this
    · intro h p hp
      simp [h p hp]

theorem Get_unique {env : Environment} {K Kv K2 : List Char}
    (hmem : (K, Kv) ∈ env) (hf : eqFold K2 K = true)
    (huniq : ∀ p ∈ env, eqFold p.1 K = true → p = (K, Kv)) :
    Get env K2 = some (trimSpace Kv) := by
  rw [Get]
  cases hx : lookupExact env K2 with
  | some v =>
    have hm2 := lookupExact_eq_some hx
    have heq := huniq (K2, v) hm2 (by simpa using hf)
    have hv : v = Kv := by
      have := congrArg Prod.snd heq
      simpa using this
    simp [hv]
  | none =>
    simp only []
    have hex : (env.find? (fun p => eqFold p.1 K2)).isSome := by
      rw [List.find?_isSome]
      exact ⟨(K, Kv), hmem, eqFold_symm hf⟩
    cases hfind : env.find? (fun p => eqFold p.1 K2) with
    | none => rw [hfind] at hex; cases hex
    | some p0 =>
      have hp0 := List.find?_some hfind
      have hp0m := List.mem_of_find?_eq_some hfind
      have : p0 = (K, Kv) := huniq p0 hp0m (eqFold_trans hp0 hf)
      subst this
      simp

theorem lookupExact_insertEnv : (env : Environment) → (k v k2 : List Char) →
    lookupExact (insertEnv env k v) k2
      = if k2 == k then some v else lookupExact env k2
  | [], k, v, k2 => by
    by_cases h : k2 = k
    · subst h
      simp [insertEnv, lookupExact]
    · have hb : (k2 == k) = false := by simpa using h
      have hb2 : (k == k2) = false := by
        simp only [beq_eq_false_iff_ne]
        exact fun he => h he.symm
      simp [insertEnv, lookupExact, hb, hb2, List.find?]
  | (k0, v0) :: rest, k, v, k2 => by
    by_cases he : k0 = k
    · subst he
      rw [insertEnv, if_pos (by simp)]
      by_cases h2 : k2 = k0
      · subst h2
        simp [lookupExact, List.find?]
      · have hb : (k2 == k0) = false := by simpa using h2
        have hb2 : (k0 == k2) = false := by
          simp only [beq_eq_false_iff_ne]
          exact fun he2 => h2 he2.symm
        simp [lookupExact, List.find?, hb, hb2]
    · rw [insertEnv, if_neg (by simpa using he)]
      by_cases h2 : k2 = k0
      · subst h2
        have hb2 : (k2 == k2) = true := by simp
        have hbk : (k2 == k) = false := by
          simp only [beq_eq_false_iff_ne]
          exact fun hk => he hk
        simp [lookupExact, List.find?, hbk]

      · have hb : (k0 == k2) = false := by
          simp only [beq_eq_false_iff_ne]
          exact fun he2 => h2 he2.symm
        have ih := lookupExact_insertEnv rest k v k2
        simp only [lookupExact, List.find?, hb] at ih ⊢
        exact ih

/-- The value the last entry of the list assigns to key k, following the
source order of New: later entries win. -/
def lastDef : List (List Char) → List Char → Option (List Char)
  | [], _ => none
  | e :: rest, k =>
    match lastDef rest k with
    | some v => some v
    | none =>
      match splitEq e with
      | some (k1, v1) => if k1 == k then some v1 else none
      | none => none

theorem New_foldl_lookup : (environ : List (List Char)) →
    (env0 : Environment) → (k : List Char) →
    lookupExact (environ.foldl newStep env0) k
      = (match lastDef environ k with
         | some v => some v
         | none => lookupExact env0 k)
  | [], env0, k => by simp [lastDef]
  | e :: rest, env0, k => by
    rw [List.foldl_cons, New_foldl_lookup rest _ k]
    rw [show lastDef (e :: rest) k
        = (match lastDef rest k with
           | some v => some v
           | none =>
             match splitEq e with
             | some (k1, v1) => if k1 == k then some v1 else none
             | none => none) from rfl]
    cases hl : lastDef rest k with
    | some v => simp
    | none =>
      cases hs : splitEq e with
      | none => simp [newStep, hs]
      | some kv =>
        obtain ⟨k1, v1⟩ := kv
        simp only [newStep, hs]
        rw [lookupExact_insertEnv env0 k1 v1 k]
        by_cases hk : k = k1
        · subst hk
          simp
        · have hb : (k == k1) = false := by simpa using hk
          have hb2 : (k1 == k) = false := by
            simp only [beq_eq_false_iff_ne]
            exact fun he2 => hk he2.symm
          simp [hb, hb2]

theorem offendsB_ignore_cons {pre k key : List Char}
    {fields ign : List (List Char)}
    (h : offendsB pre fields (k :: ign) key = true) :
    offendsB pre fields ign key = true := by
  simp only [offendsB, Bool.and_eq_true, Bool.not_eq_true',
    List.contains_cons, List.any_cons, Bool.or_eq_false_iff] at h ⊢
  exact ⟨⟨⟨h.1.1.1, h.1.1.2.2⟩, h.1.2⟩, h.2.2⟩

theorem offendsB_ignored (pre k key : List Char)
    (fields ign : List (List Char)) (hf : eqFold key k = true) :
    offendsB pre fields (k :: ign) key = false := by
  simp only [offendsB, List.any_cons, hf, Bool.true_or, Bool.not_true,
    Bool.and_false]

theorem decode_not_ptr {v : Val} (h : ∀ t w, v ≠ Val.vptr t (some w))
    (env : Environment) (pre sep : List Char) (track : Bool) :
    decode env pre sep v track = (some Err.nonPointer, v, []) := by
  cases v with
  | vptr t w =>
    cases w with
    | some w2 => exact absurd rfl (h t w2)
    | none => rfl
  | vint b x => rfl
  | vuint b x => rfl
  | vfloat b x => rfl
  | vbool x => rfl
  | vstr x => rfl
  | vslice t es => rfl
  | vstruct fs => rfl
  | viface => rfl

theorem decode_ptr (env : Environment) (pre sep : List Char) (t : Ty)
    (w : Val) (track : Bool) :
    decode env pre sep (Val.vptr t (some w)) track
      = decodeField env pre sep (derefAll w) track := rfl

theorem decode_err_none_iff (env : Environment) (pre sep : List Char)
    (v : Val) (track : Bool) :
    (decode env pre sep v track).1 = none
      ↔ ∃ t w, v = Val.vptr t (some w) := by
  constructor
  · intro h
    cases v with
    | vptr t w =>
      cases w with
      | some w2 => exact ⟨t, w2, rfl⟩
      | none => simp [decode] at h
    | vint b x => simp [decode] at h
    | vuint b x => simp [decode] at h
    | vfloat b x => simp [decode] at h
    | vbool x => simp [decode] at h
    | vstr x => simp [decode] at h
    | vslice t es => simp [decode] at h
    | vstruct fs => simp [decode] at h
    | viface => simp [decode] at h
  · rintro ⟨t, w, rfl⟩
    rw [decode_ptr]
    exact decodeField_err_none env pre sep (derefAll w) track

theorem derefAll_zeroVal (t : Ty) :
    derefAll (zeroVal t) = zeroVal (stripPtr t) := by
  cases t <;> simp only [zeroVal, stripPtr] <;> rfl

theorem DecodeStrict_eq_scan (env : Environment) (pre sep : List Char)
    (v : Val) (ign : List (List Char))
    (h : (decode env pre sep v true).1 = none) :
    DecodeStrict env pre sep v ign
      = (env.find?
          (fun p => offendsB pre (decode env pre sep v true).2.2 ign p.1)).map
          (fun p => Err.unrecognized p.1) := by
  cases hd : decode env pre sep v true with
  | mk e r =>
    obtain ⟨v2, fs⟩ := r
    rw [hd] at h
    simp only at h
    subst h
    simp [DecodeStrict, hd]

/-! Claim theorems. -/

/-- C8 counterexample: the claim asserts that an empty trailing segment is
appended whenever the input ends with an unescaped delimiter; splitList on
the two characters of the string a-comma returns one segment, not two. -/
theorem C8_counterexample :
    splitList (cs "a,") = [cs "a"] ∧ splitList (cs "a,") ≠ [cs "a", []] := by
  constructor
  · decide
  · decide

/-- C8 amended: the empty string splits into no segments; a nonempty input
with no unescaped delimiter yields exactly the whole cleaned string; the
scan appends the trailing segment only when it is nonempty, so an input
ending with an unescaped delimiter yields no empty trailing segment (a
trailing empty raw segment is dropped, as the general characterisation
states). -/
theorem C8_amended :
    (∀ src, splitList src
        = (dropTrailEmpty (segmentsRaw src)).map removeEscape)
    ∧ splitList [] = []
    ∧ (∀ src, src ≠ [] → hasUnescapedComma src = false →
        splitList src = [removeEscape src])
    ∧ (∀ src, (segmentsRaw src).getLast? = some [] →
        splitList src = ((segmentsRaw src).dropLast).map removeEscape) := by
  refine ⟨splitList_eq, by decide, ?_, ?_⟩
  · intro src hne hnc
    rw [splitList_eq, segmentsRaw_no_comma src hnc]
    have : dropTrailEmpty [src] = [src] := by
      rw [dropTrailEmpty]
      cases src with
      | nil => exact absurd rfl hne
      | cons a b => simp
    rw [this]
    simp
  · intro src hlast
    rw [splitList_eq, dropTrailEmpty, hlast]

/-- C8 witness: the amended single-segment clause applied to a concrete
input containing an escaped delimiter. -/
theorem C8_amended_witness :
    splitList (cs "a\\,b") = [removeEscape (cs "a\\,b")] :=
  C8_amended.2.2.1 (cs "a\\,b") (by decide) (by decide)

theorem removeEscape_append (a b : List Char) :
    removeEscape (a ++ b) = removeEscape a ++ removeEscape b := by
  simp [removeEscape, List.filter_append]

/-- Prepend the cleaned form of an escaped character onto the head segment
of a split result: the escaped character is literal (it neither delimits
nor escapes), and the escape character itself never survives cleanup. -/
def prependClean (c : Char) : List (List Char) → List (List Char)
  | [] => [removeEscape ['\\', c]]
  | h :: t => (removeEscape ['\\', c] ++ h) :: t

/-- C9: no escape character ever appears in an output segment; an escape
character makes the immediately following character literal (the split of
an input starting with an escaped character is the split of the rest with
the cleaned character joined onto the first segment, so the escaped
character neither delimits nor escapes); and the concrete example of the
specification evaluates to its three segments. -/
theorem C9_escape_literal :
    (∀ src seg, seg ∈ splitList src → '\\' ∉ seg)
    ∧ (∀ c rest, splitList ('\\' :: c :: rest)
        = prependClean c (splitList rest))
    ∧ splitList (cs "ren,stimpy,hapi\\, hapi\\, joi\\, joi")
        = [cs "ren", cs "stimpy", cs "hapi, hapi, joi, joi"] := by
  refine ⟨?_, ?_, by decide⟩
  · intro src seg hmem
    rw [splitList_eq] at hmem
    rw [List.mem_map] at hmem
    obtain ⟨x, _, rfl⟩ := hmem
    intro hc
    rw [removeEscape] at hc
    have := List.of_mem_filter hc
    simp at this
  · intro c rest
    rw [splitList_eq, splitList_eq,
      show segmentsRaw ('\\' :: c :: rest)
        = consHead ['\\', c] (segmentsRaw rest) from rfl]
    cases hr : segmentsRaw rest with
    | nil => exact absurd hr (segmentsRaw_ne_nil rest)
    | cons h t =>
      rw [consHead]
      cases t with
      | nil =>
        rw [show dropTrailEmpty [['\\', c] ++ h] = [['\\', c] ++ h] from by
          rw [dropTrailEmpty]
          cases hh : ['\\', c] ++ h <;> simp_all]
        cases h with
        | nil =>
          rw [show dropTrailEmpty [[]] = [] from by rw [dropTrailEmpty]; rfl]
          simp [prependClean, removeEscape]
        | cons a b =>
          rw [show dropTrailEmpty [a :: b] = [a :: b] from by
            rw [dropTrailEmpty]; rfl]
          show [removeEscape (['\\', c] ++ (a :: b))]
            = prependClean c [removeEscape (a :: b)]
          rw [removeEscape_append]
          rfl
      | cons t1 t2 =>
        rw [dropTrailEmpty_cons (['\\', c] ++ h) (t1 :: t2) (by simp),
          dropTrailEmpty_cons h (t1 :: t2) (by simp)]
        simp only [List.map_cons, prependClean]
        rw [removeEscape_append]

/-- C9 witness: the no-escape-in-output clause applied to the third segment
of the specification example. -/
theorem C9_escape_literal_witness :
    '\\' ∉ cs "hapi, hapi, joi, joi" :=
  C9_escape_literal.1 (cs "ren,stimpy,hapi\\, hapi\\, joi\\, joi")
    (cs "hapi, hapi, joi, joi") (by decide)

/-- C10: the store built by New maps any key to the value assigned by the
last entry of the list that parses to that key (later duplicate entries
overwrite earlier ones); absent any such entry the key is absent. -/
theorem C10_last_wins (environ : List (List Char)) (k : List Char) :
    lookupExact (New environ) k = lastDef environ k := by
  rw [New, New_foldl_lookup environ [] k]
  cases lastDef environ k with
  | none => simp [lookupExact]
  | some v => simp

/-- C7 counterexample: the claim asserts that every case-variant of a
stored key returns the same trimmed value; when the store holds two keys
differing only by case with different values, the exact-match preference
returns different values for two case-variants of the same key. -/
theorem C7_counterexample :
    Get (New [cs "a=1", cs "A=2"]) (cs "a") = some (cs "1")
    ∧ Get (New [cs "a=1", cs "A=2"]) (cs "A") = some (cs "2")
    ∧ eqFold (cs "A") (cs "a") = true
    ∧ cs "1" ≠ cs "2" := by
  refine ⟨by decide, by decide, by decide, by decide⟩

/-- C7 amended: Get tries an exact match first and otherwise scans
case-insensitively, returning the trimmed stored value when a match exists
and nothing when none does; and when the store holds exactly one key
case-insensitively equal to the query key, every case-variant of that key
returns that key's trimmed value. -/
theorem C7_amended :
    (∀ (env : Environment) (name v : List Char),
        lookupExact env name = some v → Get env name = some (trimSpace v))
    ∧ (∀ (env : Environment) (name : List Char),
        Get env name = none ↔ ∀ p ∈ env, eqFold p.1 name = false)
    ∧ (∀ (env : Environment) (K Kv K2 : List Char),
        (K, Kv) ∈ env → eqFold K2 K = true →
        (∀ p ∈ env, eqFold p.1 K = true → p = (K, Kv)) →
        Get env K2 = some (trimSpace Kv)) :=
  ⟨fun _ _ _ h => Get_of_exact h, Get_eq_none_iff,
   fun _ _ _ _ h1 h2 h3 => Get_unique h1 h2 h3⟩

/-- C7 witness: the unique-key clause applied to a store holding one key,
queried through a case-variant; the returned value is trimmed. -/
theorem C7_amended_witness :
    Get [(cs "Key", cs " v ")] (cs "kEY") = some (trimSpace (cs " v ")) :=
  C7_amended.2.2 [(cs "Key", cs " v ")] (cs "Key") (cs " v ") (cs "kEY")
    (by decide) (by decide) (by decide)

/-- C1 counterexample: a list-typed field whose source has one element that
converts and a later element that fails ends up holding exactly the
converted prefix: after decoding, the field holds one element although the
conversion of the looked-up value failed and the default is the empty
slice, so the field is neither at its default nor fully converted. -/
theorem C1_counterexample :
    decode (New [cs "p_f=1,x"]) (cs "p") (cs "_")
        (Val.vptr (Ty.structT [(cs "F", cs "f", Ty.sliceT (Ty.intT 64))])
          (some (Val.vstruct [(cs "F", cs "f", Val.vslice (Ty.intT 64) [])])))
        false
      = (none,
         Val.vstruct [(cs "F", cs "f",
           Val.vslice (Ty.intT 64) [Val.vint 64 1])], [])
    ∧ (decodeLiteral (cs "1,x") (Val.vslice (Ty.intT 64) [])).1
      = some Err.convError
    ∧ Val.vslice (Ty.intT 64) [Val.vint 64 1]
      ≠ Val.vslice (Ty.intT 64) [] := by
  refine ⟨?_, ?_, by simp⟩
  · simp [decode, decodeField, decodeFieldList, derefAll, Get, lookupExact,
      New, newStep, insertEnv, splitEq, cs, eqFold, toLowerGo, trimSpace,
      isSpaceGo, decodeLiteral, decodeSliceGo, splitList, splitGo, zeroVal,
      stripPtr, parseInt, parseUintCore, parseDigits, digitVal, removeEscape,
      List.find?]
  · simp [decodeLiteral, decodeSliceGo, splitList, splitGo, cs, zeroVal,
      stripPtr, parseInt, parseUintCore, parseDigits, digitVal, removeEscape]

/-- C1 amended: a scalar leaf is atomic — on a conversion error its value
is unchanged; a list-typed leaf is first cleared and then holds exactly the
converted values of the longest prefix of segments that all convert, with
the error of the first failing segment swallowed by the caller; a leaf
whose qualified key is absent is left unchanged. -/
theorem C1_amended :
    (∀ (s : List Char) (v : Val), isScalarV v = true →
        (decodeLiteral s v).1.isSome → (decodeLiteral s v).2 = v)
    ∧ (∀ (s : List Char) (t : Ty) (es : List Val),
        decodeLiteral s (Val.vslice t es)
          = (firstErrOf t (splitList s),
             Val.vslice t (convertedPrefix t (splitList s))))
    ∧ (∀ (env : Environment) (name sep : List Char) (v : Val) (track : Bool),
        (∀ fs, v ≠ Val.vstruct fs) → Get env name = none →
        decodeField env name sep v track = (none, v, [])) := by
  refine ⟨decodeLiteral_scalar_err_unchanged, ?_, ?_⟩
  · intro s t es
    simp only [decodeLiteral]
    rw [decodeSliceGo_eq (splitList s) t []]
    simp
  · intro env name sep v track hns hget
    rw [decodeField.eq_def]
    split
    · rename_i fs
      exact absurd rfl (hns fs)
    · rw [hget]

/-- C1 witness: the absent-key clause applied to a concrete integer leaf
under an empty store. -/
theorem C1_amended_witness :
    decodeField (New []) (cs "k") (cs "_") (Val.vint 64 5) true
      = (none, Val.vint 64 5, []) :=
  C1_amended.2.2 (New []) (cs "k") (cs "_") (Val.vint 64 5) true
    (fun fs h => by cases h) (by decide)

/-- C2: the code never surfaces the unsupported-type structural error from
decode.  With a target containing an open/untyped leaf field and a store
key exactly matching that field's qualified name, decode returns no error
(decodeField swallows the unsupported-type error of decodeLiteral); with
the key absent it returns no error either (the field's type is never
examined); yet the literal converter does report the unsupported-type
error it is asked to produce, which decodeField then discards. -/
theorem C2_code_eval :
    (decode (New [cs "required=1"]) [] []
        (Val.vptr (Ty.structT [(cs "Required", [], Ty.ifaceT)])
          (some (Val.vstruct [(cs "Required", [], Val.viface)]))) false).1
      = none
    ∧ (decode (New []) [] []
        (Val.vptr (Ty.structT [(cs "Required", [], Ty.ifaceT)])
          (some (Val.vstruct [(cs "Required", [], Val.viface)]))) false).1
      = none
    ∧ (decodeLiteral (cs "1") Val.viface).1 = some Err.unsupportedType := by
  refine ⟨?_, ?_, ?_⟩
  · simp [decode, decodeField, decodeFieldList, derefAll, Get, lookupExact,
      New, newStep, insertEnv, splitEq, cs, eqFold, toLowerGo, trimSpace,
      isSpaceGo, decodeLiteral, List.find?]
  · simp [decode, decodeField, decodeFieldList, derefAll, Get, lookupExact,
      New, newStep, insertEnv, splitEq, cs, eqFold, toLowerGo, trimSpace,
      isSpaceGo, decodeLiteral, List.find?]
  · simp [decodeLiteral]

/-- C6 counterexample: a struct with a list field (key present, second
element malformed) and an integer field; decode returns no error and goes
on to decode the integer field, but the list field is not left at its
default: it holds the converted prefix. -/
theorem C6_counterexample :
    decode (New [cs "p_a=1,x", cs "p_b=5"]) (cs "p") (cs "_")
        (Val.vptr
          (Ty.structT [(cs "A", cs "a", Ty.sliceT (Ty.intT 64)),
                       (cs "B", cs "b", Ty.intT 64)])
          (some (Val.vstruct
            [(cs "A", cs "a", Val.vslice (Ty.intT 64) []),
             (cs "B", cs "b", Val.vint 64 0)]))) false
      = (none,
         Val.vstruct
           [(cs "A", cs "a", Val.vslice (Ty.intT 64) [Val.vint 64 1]),
            (cs "B", cs "b", Val.vint 64 5)], [])
    ∧ (decodeLiteral (cs "1,x") (Val.vslice (Ty.intT 64) [])).1.isSome
      = true
    ∧ Val.vslice (Ty.intT 64) [Val.vint 64 1]
      ≠ zeroVal (Ty.sliceT (Ty.intT 64)) := by
  refine ⟨?_, ?_, ?_⟩
  · simp [decode, decodeField, decodeFieldList, derefAll, Get, lookupExact,
      New, newStep, insertEnv, splitEq, cs, eqFold, toLowerGo, trimSpace,
      isSpaceGo, decodeLiteral, decodeSliceGo, splitList, splitGo, zeroVal,
      stripPtr, parseInt, parseUintCore, parseDigits, digitVal, removeEscape,
      List.find?]
  · simp [decodeLiteral, decodeSliceGo, splitList, splitGo, cs, zeroVal,
      stripPtr, parseInt, parseUintCore, parseDigits, digitVal, removeEscape]
  · simp only [zeroVal]
    simp

/-- C6 amended: decodeField never returns an error, so conversion failures
never propagate; a scalar leaf whose key is present but malformed (or
absent) keeps its former value, and is fully overwritten on success; and
the field loop decodes every field independently, so decoding always
continues over the remaining fields. -/
theorem C6_amended :
    (∀ (env : Environment) (name sep : List Char) (v : Val) (track : Bool),
        (decodeField env name sep v track).1 = none)
    ∧ (∀ (env : Environment) (name sep : List Char) (v : Val) (track : Bool),
        isScalarV v = true →
        ((decodeField env name sep v track).2.1 = v
          ∨ ∃ src, Get env name = some src
              ∧ (decodeLiteral src v).1 = none
              ∧ (decodeField env name sep v track).2.1
                  = (decodeLiteral src v).2))
    ∧ (∀ (env : Environment) (name sep : List Char)
        (fs : List (List Char × List Char × Val)) (track : Bool),
        decodeFieldList env name sep fs track
          = (none, fs.map (fieldStep env name sep track),
              (fs.map (fieldKeys env name sep track)).join)) := by
  refine ⟨decodeField_err_none, ?_, decodeFieldList_eq⟩
  intro env name sep v track hsc
  have hns : ∀ fs, v ≠ Val.vstruct fs := by
    intro fs he
    subst he
    simp [isScalarV] at hsc
  rw [decodeField.eq_def]
  split
  · rename_i fs
    exact absurd rfl (hns fs)
  · cases hget : Get env name with
    | none => simp
    | some src =>
      simp only []
      cases hdl : decodeLiteral src v with
      | mk e v2 =>
        cases e with
        | some err =>
          left
          have := decodeLiteral_scalar_err_unchanged src v hsc
            (by rw [hdl]; simp)
          rw [hdl] at this
          simpa using this
        | none =>
          right
          exact ⟨src, by simp [hget], by simp [hdl], by simp [hdl]⟩

/-- C6 witness: the scalar clause applied to an integer leaf whose key is
present but malformed. -/
theorem C6_amended_witness :
    (decodeField (New [cs "k=zz"]) (cs "k") (cs "_") (Val.vint 64 7)
        false).2.1 = Val.vint 64 7
      ∨ ∃ src, Get (New [cs "k=zz"]) (cs "k") = some src
          ∧ (decodeLiteral src (Val.vint 64 7)).1 = none
          ∧ (decodeField (New [cs "k=zz"]) (cs "k") (cs "_") (Val.vint 64 7)
              false).2.1 = (decodeLiteral src (Val.vint 64 7)).2 :=
  C6_amended.2.1 (New [cs "k=zz"]) (cs "k") (cs "_") (Val.vint 64 7) false
    (by decide)

/-- C3 counterexample: with a single skip-tagged field Key and the store
holding p_key (a case-insensitive match for the field's qualified name
p_Key), strict decoding reports p_key as unrecognized — the skipped field
contributes no consumed key, so the strict validator does report a key
matching the skipped field's qualified name. -/
theorem C3_counterexample :
    DecodeStrict (New [cs "p_key=x"]) (cs "p") (cs "_")
        (Val.vptr (Ty.structT [(cs "Key", cs "-", Ty.stringT)])
          (some (Val.vstruct [(cs "Key", cs "-", Val.vstr [])]))) []
      = some (Err.unrecognized (cs "p_key"))
    ∧ eqFold (cs "p_key") (cs "p" ++ cs "_" ++ cs "Key") = true := by
  refine ⟨?_, by decide⟩
  simp [DecodeStrict, decode, decodeField, decodeFieldList, derefAll, Get,
    lookupExact, New, newStep, insertEnv, splitEq, cs, offendsB,
    hasPrefixFold, eqFold, toLowerGo, List.find?]

/-- C3 amended: a skip-tagged field is invisible to the decoder — it is
never looked up or written and contributes no consumed key, whatever the
store contains; but it is not invisible to the strict validator: a store
key matching the skipped field's qualified name is reported as
unrecognized unless the caller lists it in the ignore set, in which case
the same call succeeds, and the skipped field's value is untouched even
though its key is present. -/
theorem C3_amended :
    (∀ (env : Environment) (name sep fname : List Char) (fval : Val)
        (rest : List (List Char × List Char × Val)) (track : Bool),
        decodeFieldList env name sep ((fname, cs "-", fval) :: rest) track
          = ((decodeFieldList env name sep rest track).1,
             (fname, cs "-", fval)
               :: (decodeFieldList env name sep rest track).2.1,
             (decodeFieldList env name sep rest track).2.2))
    ∧ DecodeStrict (New [cs "p_key=x"]) (cs "p") (cs "_")
        (Val.vptr (Ty.structT [(cs "Key", cs "-", Ty.stringT)])
          (some (Val.vstruct [(cs "Key", cs "-", Val.vstr [])])))
        [cs "p_key"] = none
    ∧ (decode (New [cs "p_key=x"]) (cs "p") (cs "_")
        (Val.vptr (Ty.structT [(cs "Key", cs "-", Ty.stringT)])
          (some (Val.vstruct [(cs "Key", cs "-", Val.vstr [])]))) false).2
      = (Val.vstruct [(cs "Key", cs "-", Val.vstr [])], []) := by
  refine ⟨?_, ?_, ?_⟩
  · intro env name sep fname fval rest track
    exact decodeFieldList_cons_skip env name sep fname (cs "-") fval rest
      track (by decide)
  · simp [DecodeStrict, decode, decodeField, decodeFieldList, derefAll, Get,
      lookupExact, New, newStep, insertEnv, splitEq, cs, offendsB,
      hasPrefixFold, eqFold, toLowerGo, List.find?]
  · simp [decode, decodeField, decodeFieldList, derefAll, cs]

/-- C5 counterexample: the claim asserts that decode returns the
non-pointer structural error for a nil untyped target; at that input the
error branch of the Go function panics evaluating value.Type() on the zero
reflect.Value, so no result — in particular no non-pointer error — is
returned: decodeTop yields the panic outcome, not an error result. -/
theorem C5_counterexample :
    decodeTop (New []) (cs "p") (cs "_") Target.nilIface false = none
    ∧ decodeTop (New []) (cs "p") (cs "_") Target.nilIface false
        ≠ some (some Err.nonPointer, Val.viface, []) := by
  exact ⟨rfl, by simp [decodeTop]⟩

/-- C5 amended: for every valid target value that is not a non-nil pointer
(any non-pointer value, and a directly passed nil typed pointer), decode
returns the non-pointer structural error; for the nil untyped value the
code returns nothing at all — the error branch panics on value.Type()
applied to the zero reflect.Value — while every valid value decodes
normally through the same function; and decoding through a non-nil pointer
to a nil pointer to a record auto-allocates: it is exactly decoding into a
freshly zero-allocated instance of that type. -/
theorem C5_amended :
    (∀ (env : Environment) (pre sep : List Char) (v : Val) (track : Bool),
        (decode env pre sep v track).1 = some Err.nonPointer
          ↔ ¬∃ t w, v = Val.vptr t (some w))
    ∧ (∀ (env : Environment) (pre sep : List Char) (track : Bool),
        decodeTop env pre sep Target.nilIface track = none)
    ∧ (∀ (env : Environment) (pre sep : List Char) (v : Val) (track : Bool),
        decodeTop env pre sep (Target.val v) track
          = some (decode env pre sep v track))
    ∧ (∀ (env : Environment) (pre sep : List Char) (track : Bool) (t : Ty),
        decode env pre sep (Val.vptr (Ty.ptrT t) (some (Val.vptr t none)))
            track
          = decode env pre sep (Val.vptr t (some (zeroVal t))) track) := by
  refine ⟨?_, fun _ _ _ _ => rfl, fun _ _ _ _ _ => rfl, ?_⟩
  · intro env pre sep v track
    constructor
    · intro h hex
      have := (decode_err_none_iff env pre sep v track).mpr hex
      rw [this] at h
      cases h
    · intro hnex
      have hne : ∀ t w, v ≠ Val.vptr t (some w) := by
        intro t w he
        exact hnex ⟨t, w, he⟩
      rw [decode_not_ptr hne]
  · intro env pre sep track t
    rw [decode_ptr, decode_ptr, derefAll_zeroVal]
    rfl

/-- C4 counterexample: with two unrecognized keys in the store, the strict
call fails naming one of them, and supplying that named key in the ignore
set does not make the same call succeed — it fails naming the other key. -/
theorem C4_counterexample :
    DecodeStrict (New [cs "p_a=1", cs "p_b=2"]) (cs "p") (cs "_")
        (Val.vptr (Ty.structT []) (some (Val.vstruct []))) []
      = some (Err.unrecognized (cs "p_a"))
    ∧ DecodeStrict (New [cs "p_a=1", cs "p_b=2"]) (cs "p") (cs "_")
        (Val.vptr (Ty.structT []) (some (Val.vstruct []))) [cs "p_a"]
      = some (Err.unrecognized (cs "p_b")) := by
  constructor
  · simp [DecodeStrict, decode, decodeField, decodeFieldList, derefAll, Get,
      lookupExact, New, newStep, insertEnv, splitEq, cs, offendsB,
      hasPrefixFold, eqFold, toLowerGo, List.find?]
  · simp [DecodeStrict, decode, decodeField, decodeFieldList, derefAll, Get,
      lookupExact, New, newStep, insertEnv, splitEq, cs, offendsB,
      hasPrefixFold, eqFold, toLowerGo, List.find?]

/-- C4 amended: after a successful underlying decode, DecodeStrict succeeds
exactly when no store key offends (prefixed, matching neither the consumed
keys nor the ignore set); a returned error names an offending store key;
and supplying the named key in the ignore set stops that key (and its
case-variants) from being reported, so the same call succeeds whenever
every offending key was a case-variant of the named one. -/
theorem C4_amended (env : Environment) (pre sep : List Char) (v : Val)
    (ign : List (List Char))
    (h : (decode env pre sep v true).1 = none) :
    (DecodeStrict env pre sep v ign = none
        ↔ ∀ p ∈ env,
            offendsB pre (decode env pre sep v true).2.2 ign p.1 = false)
    ∧ (∀ k, DecodeStrict env pre sep v ign = some (Err.unrecognized k) →
        (∃ val, (k, val) ∈ env)
          ∧ offendsB pre (decode env pre sep v true).2.2 ign k = true)
    ∧ (∀ k, DecodeStrict env pre sep v ign = some (Err.unrecognized k) →
        (∀ p ∈ env,
          offendsB pre (decode env pre sep v true).2.2 ign p.1 = true →
          eqFold p.1 k = true) →
        DecodeStrict env pre sep v (k :: ign) = none) := by
  have hscan := DecodeStrict_eq_scan env pre sep v ign h
  refine ⟨?_, ?_, ?_⟩
  · rw [hscan]
    constructor
    · intro hn p hp
      rw [Option.map_eq_none', List.find?_eq_none] at hn
      simpa using hn p hp
    · intro hall
      rw [Option.map_eq_none', List.find?_eq_none]
      intro p hp
      simp [hall p hp]
  · intro k hk
    rw [hscan] at hk
    rw [Option.map_eq_some'] at hk
    obtain ⟨p, hfind, hname⟩ := hk
    have hmem := List.mem_of_find?_eq_some hfind
    have hpred := List.find?_some hfind
    have hp1 : p.1 = k := by
      cases hname
      rfl
    constructor
    · exact ⟨p.2, by rw [← hp1]; exact hmem⟩
    · rw [← hp1]
      exact hpred
  · intro k hk hall
    rw [DecodeStrict_eq_scan env pre sep v (k :: ign) h]
    rw [Option.map_eq_none', List.find?_eq_none]
    intro p hp
    simp only [Bool.not_eq_true]
    cases hof : offendsB pre (decode env pre sep v true).2.2 (k :: ign) p.1
    · rfl
    · exfalso
      have h1 := offendsB_ignore_cons hof
      have h2 := hall p hp h1
      have h3 := offendsB_ignored pre k p.1
        (decode env pre sep v true).2.2 ign h2
      rw [hof] at h3
      cases h3

/-- C4 witness: a store with a single unrecognized key; moving the named
key into the ignore set makes the call succeed. -/
theorem C4_amended_witness :
    DecodeStrict (New [cs "p_a=1"]) (cs "p") (cs "_")
        (Val.vptr (Ty.structT []) (some (Val.vstruct []))) [cs "p_a"]
      = none :=
  (C4_amended (New [cs "p_a=1"]) (cs "p") (cs "_")
      (Val.vptr (Ty.structT []) (some (Val.vstruct []))) []
      (by decide)).2.2 (cs "p_a") (by decide) (by decide)

end Envconf
